import Mathlib

/-!
Shallow embedding of the hierarchical timing-wheel engine
(`timewheel` package: `bucket.go`, `timer` and `timewheel.go`).

Two models are used:

* A heap-style "world" model for `bucket.go`: timers and buckets are
  addressed by natural-number ids, a timer carries its atomic
  back-reference (`bucket unsafe.Pointer`, modelled as `Option Nat`) and
  a bucket carries its membership list (`container/list.List`, modelled
  as the list of member timer ids; the `element` field of a Go timer is
  the node of that list, so unlinking `t.element` is modelled as erasing
  the id from the list).  Go int64 instants are modelled as `Int`
  (`%` is Go's truncated remainder, `Int.tmod`; `/` is `Int.tdiv`).

* A value-style model for the wheel levels (`timewheel.go`): a wheel
  level is a tick, a size, an interval, a current time, an array of
  buckets holding timer values, and an optional overflow level.  The
  shared delay queue is an external collaborator; calls to
  `queue.Offer(b, b.expiration)` are recorded as an output list of
  offers `(level depth, bucket index, expiration)`.  The general
  recursion of `add` through lazily created overflow levels is embedded
  with explicit fuel; running out of fuel, or a Go panic (a bad slot
  index, or makeslice on a negative slot count), yields `none`.

All mutation is sequentialised: locks and atomics in the source
guarantee that each modelled operation is observed atomically, so the
functional model performs the same sequence of reads and writes.
-/

/-- A scheduled timer (`type timer struct`): absolute expiration in
milliseconds and the atomic back-reference to the owning bucket
(`bucket unsafe.Pointer`; `none` models the nil pointer).  The task
closure is irrelevant to the modelled state and omitted. -/
structure Timer where
  expiration : Int
  bucket : Option Nat
deriving Repr, DecidableEq

/-- A bucket (`type bucket struct`): atomic expiration (sentinel `-1`
when unset) and the membership list of timer ids, front to back. -/
structure Bucket where
  expiration : Int
  timers : List Nat
deriving Repr, DecidableEq

/-- `newBucket()`: expiration is the `-1` sentinel, empty list. -/
def newBucket : Bucket := ⟨-1, []⟩

/-- `bucket.SetExpiration`: atomically swap the stored expiration and
report whether the old value differed from the new one
(`atomic.SwapInt64(&b.expiration, expiration) != expiration`). -/
def Bucket.SetExpiration (b : Bucket) (e : Int) : Bool × Bucket :=
  (b.expiration != e, { b with expiration := e })

/-- The heap of all timers and buckets, addressed by ids. -/
structure World where
  timerOf : Nat → Timer
  bucketOf : Nat → Bucket

/-- Update one bucket of the world. -/
def World.setBucket (w : World) (bid : Nat) (b : Bucket) : World :=
  { w with bucketOf := fun j => if j = bid then b else w.bucketOf j }

/-- Update one timer of the world. -/
def World.setTimer (w : World) (tid : Nat) (t : Timer) : World :=
  { w with timerOf := fun j => if j = tid then t else w.timerOf j }

/-- `bucket.remove(t)`: if the timer's back-reference does not point at
this bucket, return `false` without touching anything; otherwise unlink
the timer's list node (`b.timers.Remove(t.element)`), clear the
back-reference (`t.setBucket(nil); t.element = nil`) and return
`true`. -/
def World.remove (w : World) (bid tid : Nat) : Bool × World :=
  if (w.timerOf tid).bucket = some bid then
    (true,
      (w.setBucket bid { w.bucketOf bid with
          timers := (w.bucketOf bid).timers.erase tid }).setTimer tid
        { w.timerOf tid with bucket := none })
  else
    (false, w)

/-- `bucket.Add(t)`: under the bucket lock, push the timer at the back
of the membership list and set its back-reference to this bucket. -/
def World.add (w : World) (bid tid : Nat) : World :=
  (w.setBucket bid { w.bucketOf bid with
      timers := (w.bucketOf bid).timers ++ [tid] }).setTimer tid
    { w.timerOf tid with bucket := some bid }

/-- `timer.Stop()`: loop `for b := t.getBucket(); b != nil` calling
`b.remove(t)`.  Sequentially the loop body runs at most once: when the
back-reference is `some bid`, `remove` succeeds and clears it to `none`,
so the loop exits; when it is `none` the loop never runs and the
zero-value `stopped = false` is returned. -/
def World.stop (w : World) (tid : Nat) : Bool × World :=
  match (w.timerOf tid).bucket with
  | none => (false, w)
  | some bid => w.remove bid tid

/-- The loop body of `bucket.Flush`: walk the snapshot of the membership
list, and for each timer first `b.remove(t)` then invoke the
caller-supplied `reinsert` callback on it.  (The Go loop follows saved
`next` pointers of the linked list; for callbacks that do not mutate
this bucket's list — the only way the engine uses it — that walk visits
exactly the timers of the list at entry, in order.) -/
def World.flushList (bid : Nat) (reinsert : Nat → World → World) :
    List Nat → World → World
  | [], w => w
  | tid :: rest, w =>
      World.flushList bid reinsert rest (reinsert tid (w.remove bid tid).2)

/-- `bucket.Flush(reinsert)`: under the bucket lock, walk the membership
list removing each timer and invoking the callback on it, then
`b.SetExpiration(-1)`. -/
def World.Flush (w : World) (bid : Nat) (reinsert : Nat → World → World) :
    World :=
  let w1 := World.flushList bid reinsert (w.bucketOf bid).timers w
  w1.setBucket bid ((w1.bucketOf bid).SetExpiration (-1)).2

/-- `bucket.Flush` with an inert callback that records, at each callback
invocation, the membership list of the flushed bucket as the callback
observes it at that moment. -/
def World.flushObsList (bid : Nat) : List Nat → World → World × List (List Nat)
  | [], w => (w, [])
  | tid :: rest, w =>
      let w1 := (w.remove bid tid).2
      let r := World.flushObsList bid rest w1
      (r.1, (w1.bucketOf bid).timers :: r.2)

/-- `bucket.Flush` instrumented with the observation callback, including
the final `SetExpiration(-1)`. -/
def World.FlushObs (w : World) (bid : Nat) : World × List (List Nat) :=
  let r := World.flushObsList bid (w.bucketOf bid).timers w
  (r.1.setBucket bid ((r.1.bucketOf bid).SetExpiration (-1)).2, r.2)

/-- The back-reference invariant of the data model: a timer's
back-reference is `some bid` iff the timer is a member of bucket `bid`'s
list, and no membership list holds a timer twice. -/
def BRInv (w : World) : Prop :=
  (∀ tid bid, (w.timerOf tid).bucket = some bid ↔
      tid ∈ (w.bucketOf bid).timers) ∧
  ∀ bid, ((w.bucketOf bid).timers).Nodup

/-- A timer value as the wheel model carries it: only the expiration
matters to placement. -/
structure WTimer where
  expiration : Int
deriving Repr, DecidableEq

/-- A wheel-level bucket by value: atomic expiration and the timers it
holds.  (The timer back-references and list nodes maintained by
`bucket.Add` are covered by the `World` model above.) -/
structure WBucket where
  expiration : Int
  timers : List WTimer
deriving Repr, DecidableEq

/-- A wheel level (`type TimeWheel struct`): tick and size in
milliseconds/slots, `interval = tick * size`, the atomic current time,
the bucket array, and the atomically installed overflow wheel
(`overflowWheel unsafe.Pointer`, `none` for nil). -/
inductive TimeWheel where
  | mk : (tick size interval currentTime : Int) → (buckets : List WBucket) →
      (overflow : Option TimeWheel) → TimeWheel

def TimeWheel.tick : TimeWheel → Int
  | .mk t _ _ _ _ _ => t

def TimeWheel.size : TimeWheel → Int
  | .mk _ s _ _ _ _ => s

def TimeWheel.interval : TimeWheel → Int
  | .mk _ _ i _ _ _ => i

def TimeWheel.currentTime : TimeWheel → Int
  | .mk _ _ _ c _ _ => c

def TimeWheel.buckets : TimeWheel → List WBucket
  | .mk _ _ _ _ bs _ => bs

def TimeWheel.overflow : TimeWheel → Option TimeWheel
  | .mk _ _ _ _ _ ow => ow

/-- Replace the bucket array of a level, keeping everything else. -/
def TimeWheel.withBuckets : TimeWheel → List WBucket → TimeWheel
  | .mk t s i c _ ow, bs => .mk t s i c bs ow

/-- `truncate(x, m)`: round `x` toward zero to a multiple of `m`;
`m <= 0` returns `x` unchanged.  Go's `%` on int64 is the truncated
remainder, `Int.tmod`. -/
def truncate (x m : Int) : Int :=
  if m ≤ 0 then x else x - x.tmod m

/-- A fresh wheel-level bucket, mirroring `newBucket()`. -/
def newWBucket : WBucket := ⟨-1, []⟩

/-- The wheel `newTimeWheel(tickMs, wheelSize, startMs, queue)` returns
once `make([]*bucket, wheelSize)` has succeeded: fresh bucket array of
`wheelSize` buckets, `interval = tickMs * wheelSize`, current time
truncated to a multiple of the tick, no overflow wheel yet.  (The
shared delay queue holds no modelled state.) -/
def mkWheel (tickMs wheelSize startMs : Int) : TimeWheel :=
  .mk tickMs wheelSize (tickMs * wheelSize) (truncate startMs tickMs)
    (List.replicate wheelSize.toNat newWBucket) none

/-- `newTimeWheel(tickMs, wheelSize, startMs, queue)`:
`make([]*bucket, wheelSize)` panics at runtime ("makeslice: len out of
range") when `wheelSize` is negative, modelled as `none`; otherwise the
construction succeeds with `mkWheel`. -/
def newTimeWheel (tickMs wheelSize startMs : Int) : Option TimeWheel :=
  if wheelSize < 0 then none
  else some (mkWheel tickMs wheelSize startMs)

/-- `New(tick, wheelSize)`: `tickMs := int64(tick / time.Millisecond)`
divides the nanosecond duration by `10^6` (Go division truncates toward
zero); a non-positive `tickMs` panics (`none`), otherwise the base
level is built by `newTimeWheel` from the current wall clock `nowMs`
(inheriting its makeslice panic on a negative `wheelSize`). -/
def New (tick wheelSize nowMs : Int) : Option TimeWheel :=
  let tickMs := tick.tdiv 1000000
  if tickMs ≤ 0 then none
  else newTimeWheel tickMs wheelSize nowMs

/-- `advanceClock(expiration)`: if `expiration >= currentTime + tick`,
set `currentTime = truncate(expiration, tick)` and propagate the new
current time into the overflow wheel if one exists; otherwise leave the
level untouched. -/
def TimeWheel.advanceClock (expiration : Int) : TimeWheel → TimeWheel
  | .mk t s i c bs ow =>
    if c + t ≤ expiration then
      TimeWheel.mk t s i (truncate expiration t) bs
        (match ow with
         | none => none
         | some w => some (w.advanceClock (truncate expiration t)))
    else
      .mk t s i c bs ow

/-- A recorded `queue.Offer(b, b.expiration)` call: depth of the level
in the overflow chain (0 = the level `add` was invoked on), index of
the bucket in that level's array, and the offered expiration. -/
def Offer := Nat × Nat × Int
deriving DecidableEq

/-- `add(t)`, embedded with fuel for the recursion into lazily created
overflow levels.  Returns `none` when the fuel runs out or on a Go
panic (a slot index outside the bucket array, or the makeslice panic
of `newTimeWheel` on a negative size); otherwise
`some (placed, updated wheel, recorded queue offers)`:

* `t.expiration < currentTime + tick`: not placed, return `false`;
* else if `t.expiration < currentTime + interval`: compute
  `virtualID = t.expiration / tick`, append the timer to bucket
  `virtualID % size` (`b.Add(t)`), and if
  `b.SetExpiration(virtualID * tick)` reports a change record
  `queue.Offer(b, b.expiration)`;
* else load the overflow wheel, building `newTimeWheel(interval, size,
  currentTime, queue)` first when it is nil (the CAS installs it exactly
  once), and recurse into it. -/
def addF : Nat → TimeWheel → WTimer → Option (Bool × TimeWheel × List Offer)
  | 0, _, _ => none
  | fuel + 1, .mk tick size interval c bs ow, t =>
    if t.expiration < c + tick then
      some (false, .mk tick size interval c bs ow, [])
    else if t.expiration < c + interval then
      let virtualID := t.expiration.tdiv tick
      let j := virtualID.tmod size
      if 0 ≤ j ∧ j.toNat < bs.length then
        let b := bs.getD j.toNat newWBucket
        let b1 : WBucket := { b with timers := b.timers ++ [t] }
        let sr := (b1.expiration != virtualID * tick,
                   { b1 with expiration := virtualID * tick })
        some (true, .mk tick size interval c (bs.set j.toNat sr.2) ow,
          if sr.1 then [(0, j.toNat, sr.2.expiration)] else [])
      else none
    else
      match ow with
      | some w =>
          (addF fuel w t).map fun r =>
            (r.1, .mk tick size interval c bs (some r.2.1),
             r.2.2.map fun o => (o.1 + 1, o.2))
      | none =>
          match newTimeWheel interval size c with
          | none => none
          | some nw =>
              (addF fuel nw t).map fun r =>
                (r.1, .mk tick size interval c bs (some r.2.1),
                 r.2.2.map fun o => (o.1 + 1, o.2))

/-- Well-formedness of a wheel chain as the constructors and `add`
maintain it: positive tick, at least two slots, `interval = tick * size`,
a non-negative current time, a bucket array of exactly `size` buckets,
and an overflow level (when present) whose tick is this level's
interval, with the same slot count and a current time no greater than
this level's. -/
def TimeWheel.WF : TimeWheel → Bool
  | .mk tick size interval c bs ow =>
    1 ≤ tick && 2 ≤ size && interval == tick * size && 0 ≤ c &&
    bs.length == size.toNat &&
    match ow with
    | none => true
    | some w => w.tick == interval && w.size == size &&
        w.currentTime ≤ c && w.WF

/-! ### Helper lemmas about the world model -/

theorem World.bucketOf_setBucket (w : World) (bid : Nat) (b : Bucket)
    (j : Nat) :
    (w.setBucket bid b).bucketOf j = if j = bid then b else w.bucketOf j :=
  rfl

theorem World.timerOf_setBucket (w : World) (bid : Nat) (b : Bucket) :
    (w.setBucket bid b).timerOf = w.timerOf :=
  rfl

theorem World.timerOf_setTimer (w : World) (tid : Nat) (t : Timer)
    (j : Nat) :
    (w.setTimer tid t).timerOf j = if j = tid then t else w.timerOf j :=
  rfl

theorem World.bucketOf_setTimer (w : World) (tid : Nat) (t : Timer) :
    (w.setTimer tid t).bucketOf = w.bucketOf :=
  rfl

/-! ### C7: the `SetExpiration` change signal -/

/-- C7.  `bucket.SetExpiration(e)` stores `e` as the bucket's
expiration and returns `true` iff the previously stored expiration
differed from `e`; repeating the call with the same value immediately
afterwards returns `false`. -/
theorem setExpiration_change_signal (b : Bucket) (e : Int) :
    (b.SetExpiration e).2.expiration = e ∧
    ((b.SetExpiration e).1 = true ↔ b.expiration ≠ e) ∧
    ((b.SetExpiration e).2.SetExpiration e).1 = false := by
  refine ⟨rfl, ?_, ?_⟩ <;> simp [Bucket.SetExpiration]

/-! ### C3: cancellation (`timer.Stop`) -/

/-- C3.  `timer.Stop()` returns `true` iff the timer still has an
owning bucket at the time of the call; when it does, the timer has been
unlinked from every membership list and its back-reference cleared, and
a subsequent `Stop` returns `false` (as does a `Stop` on a timer whose
back-reference is already nil because it fired or ran immediately). -/
theorem stop_true_iff_pending (w : World) (tid : Nat) (h : BRInv w) :
    ((w.stop tid).1 = true ↔ (w.timerOf tid).bucket ≠ none) ∧
    ((w.stop tid).2.timerOf tid).bucket = none ∧
    (∀ bid, tid ∉ ((w.stop tid).2.bucketOf bid).timers) ∧
    ((w.stop tid).2.stop tid).1 = false := by
  obtain ⟨hmem, hnd⟩ := h
  rcases hb : (w.timerOf tid).bucket with _ | bid
  · -- back-reference already nil: the loop never runs
    refine ⟨by simp [World.stop, hb], by simp [World.stop, hb, hb], ?_, ?_⟩
    · intro bid hin
      simp only [World.stop, hb] at hin
      have := (hmem tid bid).mpr hin
      simp [hb] at this
    · simp [World.stop, hb]
  · -- back-reference set: `remove` succeeds and clears it
    have hrem : w.remove bid tid =
        (true,
          (w.setBucket bid { w.bucketOf bid with
              timers := (w.bucketOf bid).timers.erase tid }).setTimer tid
            { w.timerOf tid with bucket := none }) := by
      simp [World.remove, hb]
    refine ⟨?_, ?_, ?_, ?_⟩
    · simp [World.stop, hb, hrem]
    · simp [World.stop, hb, hrem, World.timerOf_setTimer]
    · intro b hin
      simp only [World.stop, hb, hrem, World.bucketOf_setTimer,
        World.bucketOf_setBucket] at hin
      by_cases hbb : b = bid
      · subst hbb
        simp only [if_pos rfl] at hin
        exact ((hnd b).mem_erase_iff.mp hin).1 rfl
      · simp only [if_neg hbb] at hin
        have := (hmem tid b).mpr hin
        rw [hb] at this
        exact hbb (Option.some.inj this).symm
    · simp [World.stop, hb, hrem, World.timerOf_setTimer]
/-! ### C8: the back-reference invariant -/

theorem BRInv_remove (w : World) (bid tid : Nat) (h : BRInv w) :
    BRInv (w.remove bid tid).2 := by
  obtain ⟨hmem, hnd⟩ := h
  by_cases hb : (w.timerOf tid).bucket = some bid
  · rw [World.remove, if_pos hb]
    refine ⟨?_, ?_⟩
    · intro t' b'
      simp only [World.timerOf_setTimer, World.bucketOf_setTimer,
        World.bucketOf_setBucket]
      by_cases ht : t' = tid
      · rw [if_pos ht]
        refine iff_of_false (fun hcon => Option.noConfusion hcon) ?_
        by_cases hbb : b' = bid
        · rw [hbb, if_pos rfl]
          intro hin
          have hin' : t' ∈ ((w.bucketOf bid).timers).erase tid := hin
          rw [ht] at hin'
          exact ((hnd bid).mem_erase_iff.mp hin').1 rfl
        · rw [if_neg hbb]
          intro hin
          have h2 := (hmem t' b').mpr hin
          rw [ht, hb] at h2
          exact hbb (Option.some.inj h2).symm
      · rw [if_neg ht]
        by_cases hbb : b' = bid
        · rw [hbb, if_pos rfl]
          show _ ↔ t' ∈ ((w.bucketOf bid).timers).erase tid
          rw [List.mem_erase_of_ne ht]
          exact hmem t' bid
        · rw [if_neg hbb]
          exact hmem t' b'
    · intro b'
      simp only [World.bucketOf_setTimer, World.bucketOf_setBucket]
      by_cases hbb : b' = bid
      · rw [hbb, if_pos rfl]
        exact (hnd bid).erase _
      · rw [if_neg hbb]
        exact hnd b'
  · rw [World.remove, if_neg hb]
    exact ⟨hmem, hnd⟩

theorem BRInv_add (w : World) (bid tid : Nat) (h : BRInv w)
    (hfree : (w.timerOf tid).bucket = none) :
    BRInv (w.add bid tid) := by
  obtain ⟨hmem, hnd⟩ := h
  have hnotin : ∀ b', tid ∉ (w.bucketOf b').timers := fun b' hin =>
    Option.noConfusion (hfree ▸ (hmem tid b').mpr hin)
  refine ⟨?_, ?_⟩
  · intro t' b'
    simp only [World.add, World.timerOf_setTimer, World.bucketOf_setTimer,
      World.bucketOf_setBucket, World.timerOf_setBucket]
    by_cases ht : t' = tid
    · rw [if_pos ht]
      by_cases hbb : b' = bid
      · rw [hbb, if_pos rfl, ht]
        exact iff_of_true rfl
          (List.mem_append_right _ (List.mem_singleton_self tid))
      · rw [if_neg hbb]
        refine iff_of_false ?_ (fun hin => hnotin b' (ht ▸ hin))
        intro hcon
        exact hbb (Option.some.inj hcon).symm
    · rw [if_neg ht]
      by_cases hbb : b' = bid
      · rw [hbb, if_pos rfl]
        show _ ↔ t' ∈ (w.bucketOf bid).timers ++ [tid]
        rw [List.mem_append]
        constructor
        · intro ha
          exact Or.inl ((hmem t' bid).mp ha)
        · rintro (hin | hin)
          · exact (hmem t' bid).mpr hin
          · rw [List.mem_singleton] at hin
            exact absurd hin ht
      · rw [if_neg hbb]
        exact hmem t' b'
  · intro b'
    simp only [World.add, World.bucketOf_setTimer, World.bucketOf_setBucket]
    by_cases hbb : b' = bid
    · rw [hbb, if_pos rfl]
      show ((w.bucketOf bid).timers ++ [tid]).Nodup
      refine (hnd bid).append (List.nodup_singleton tid) ?_
      intro a ha ha2
      rw [List.mem_singleton] at ha2
      subst ha2
      exact hnotin bid ha
    · rw [if_neg hbb]
      exact hnd b'

theorem BRInv_flushList (bid : Nat) (reinsert : Nat → World → World)
    (hre : ∀ t u, BRInv u → BRInv (reinsert t u)) :
    ∀ (l : List Nat) (w : World), BRInv w →
      BRInv (World.flushList bid reinsert l w)
  | [], _, h => h
  | t :: rest, w, h =>
      BRInv_flushList bid reinsert hre rest _
        (hre t _ (BRInv_remove w bid t h))

theorem BRInv_setExpInWorld (w : World) (bid : Nat) (e : Int)
    (h : BRInv w) :
    BRInv (w.setBucket bid ((w.bucketOf bid).SetExpiration e).2) := by
  obtain ⟨hmem, hnd⟩ := h
  refine ⟨?_, ?_⟩
  · intro t' b'
    simp only [World.timerOf_setBucket, World.bucketOf_setBucket]
    by_cases hbb : b' = bid
    · rw [hbb, if_pos rfl]
      exact hmem t' bid
    · rw [if_neg hbb]
      exact hmem t' b'
  · intro b'
    simp only [World.bucketOf_setBucket]
    by_cases hbb : b' = bid
    · rw [hbb, if_pos rfl]
      exact hnd bid
    · rw [if_neg hbb]
      exact hnd b'

/-- C8.  The back-reference invariant — a timer's back-reference is
non-null iff it is a member of that bucket's list — is established by
`bucket.Add` on a timer that is not yet linked anywhere, and preserved
by `bucket.remove`, by `timer.Stop`, and by `bucket.Flush` whenever the
reinsertion callback itself preserves it (the engine's callback is
`addOrRun`, which only uses these same primitives). -/
theorem backref_invariant_preservation (w : World) (h : BRInv w) :
    (∀ bid tid, (w.timerOf tid).bucket = none → BRInv (w.add bid tid)) ∧
    (∀ bid tid, BRInv (w.remove bid tid).2) ∧
    (∀ tid, BRInv (w.stop tid).2) ∧
    (∀ bid reinsert, (∀ t u, BRInv u → BRInv (reinsert t u)) →
      BRInv (w.Flush bid reinsert)) := by
  refine ⟨fun bid tid hf => BRInv_add w bid tid h hf,
          fun bid tid => BRInv_remove w bid tid h,
          fun tid => ?_,
          fun bid reinsert hre => ?_⟩
  · cases hb : (w.timerOf tid).bucket with
    | none => simpa [World.stop, hb] using h
    | some bid => simpa [World.stop, hb] using BRInv_remove w bid tid h
  · exact BRInv_setExpInWorld _ bid (-1)
      (BRInv_flushList bid reinsert hre _ w h)

/-- A concrete world used by witnesses: timers `0` and `1` live in
bucket `0`, all other ids are free. -/
def exW : World :=
  { timerOf := fun t =>
      if t = 0 then ⟨10, some 0⟩
      else if t = 1 then ⟨11, some 0⟩
      else ⟨0, none⟩,
    bucketOf := fun b => if b = 0 then ⟨8, [0, 1]⟩ else ⟨-1, []⟩ }

theorem BRInv_exW : BRInv exW := by
  refine ⟨?_, ?_⟩
  · intro tid bid
    by_cases ht0 : tid = 0
    · subst ht0
      by_cases hb : bid = 0
      · subst hb
        simp [exW]
      · simp [exW, hb, Ne.symm hb]
    · by_cases ht1 : tid = 1
      · subst ht1
        by_cases hb : bid = 0
        · subst hb
          simp [exW]
        · simp [exW, hb, Ne.symm hb]
      · by_cases hb : bid = 0
        · subst hb
          simp [exW, ht0, ht1]
        · simp [exW, ht0, ht1, hb]
  · intro bid
    by_cases hb : bid = 0
    · subst hb
      simp [exW]
    · simp [exW, hb]

/-- Witness for C3 at the concrete world `exW`. -/
theorem stop_true_iff_pending_witness :
    ((World.stop exW 0).1 = true ↔ (exW.timerOf 0).bucket ≠ none) ∧
    ((World.stop exW 0).2.timerOf 0).bucket = none ∧
    (∀ bid, 0 ∉ ((World.stop exW 0).2.bucketOf bid).timers) ∧
    ((World.stop exW 0).2.stop 0).1 = false :=
  stop_true_iff_pending exW 0 BRInv_exW

/-- Witness for C8 at the concrete world `exW`. -/
theorem backref_invariant_preservation_witness :
    (∀ bid tid, (exW.timerOf tid).bucket = none → BRInv (exW.add bid tid)) ∧
    (∀ bid tid, BRInv (exW.remove bid tid).2) ∧
    (∀ tid, BRInv (exW.stop tid).2) ∧
    (∀ bid reinsert, (∀ t u, BRInv u → BRInv (reinsert t u)) →
      BRInv (exW.Flush bid reinsert)) :=
  backref_invariant_preservation exW BRInv_exW

/-! ### C2: what the `Flush` callback can observe -/

theorem tails_self_cons (l : List Nat) : l.tails = l :: l.tails.tail := by
  cases l <;> simp

theorem flushObsList_spec (bid : Nat) :
    ∀ (l : List Nat) (w : World), (w.bucketOf bid).timers = l →
      (∀ t ∈ l, (w.timerOf t).bucket = some bid) → l.Nodup →
      (World.flushObsList bid l w).2 = l.tails.tail ∧
      ((World.flushObsList bid l w).1.bucketOf bid).timers = [] := by
  intro l
  induction l with
  | nil =>
      intro w hl _ _
      exact ⟨by simp [World.flushObsList],
             by simpa [World.flushObsList] using hl⟩
  | cons t rest ih =>
      intro w hl hown hnd
      have hguard : (w.timerOf t).bucket = some bid := hown t (by simp)
      have hw1 : (w.remove bid t).2 =
          (w.setBucket bid { w.bucketOf bid with
              timers := ((w.bucketOf bid).timers).erase t }).setTimer t
            { w.timerOf t with bucket := none } := by
        rw [World.remove, if_pos hguard]
      have hmem1 : (((w.remove bid t).2).bucketOf bid).timers = rest := by
        rw [hw1]
        simp only [World.bucketOf_setTimer, World.bucketOf_setBucket,
          if_pos rfl]
        rw [hl]
        exact List.erase_cons_head t rest
      have htnotin : t ∉ rest := (List.nodup_cons.mp hnd).1
      have hnd' : rest.Nodup := (List.nodup_cons.mp hnd).2
      have hown' : ∀ t' ∈ rest,
          (((w.remove bid t).2).timerOf t').bucket = some bid := by
        intro t' ht'
        rw [hw1]
        simp only [World.timerOf_setTimer]
        rw [if_neg (by rintro rfl; exact htnotin ht')]
        exact hown t' (by simp [ht'])
      obtain ⟨hobs, hempty⟩ := ih ((w.remove bid t).2) hmem1 hown' hnd'
      constructor
      · simp only [World.flushObsList]
        rw [hmem1, hobs, List.tails_cons]
        exact (tails_self_cons rest).symm
      · simp only [World.flushObsList]
        exact hempty

/-- C2 counterexample.  The claim that the callback passed to
`bucket.Flush` can never observe the bucket in a partially-drained
state is false: flushing a bucket that holds timers `0` and `1`, the
callback invoked for timer `0` observes timer `1` still in the
membership list (`bucket.Flush` removes one timer and immediately runs
the callback, inside the locked loop, before touching the next
timer). -/
theorem flush_callback_observes_undrained_timer :
    (World.FlushObs exW 0).2 = [[1], []] ∧ ([1] : List Nat) ≠ [] := by
  exact ⟨by decide, by simp⟩

/-- C2 amended.  `bucket.Flush(reinsert)` removes the timers one at a
time, invoking the callback immediately after each removal and inside
the locked region, so the callback for the `i`-th timer observes
exactly the timers after position `i` still in the list (the proper
tails of the membership list); after the last callback the list is
empty and the bucket's expiration is cleared to the `-1` sentinel. -/
theorem flush_interleaves_remove_and_callback (w : World) (bid : Nat)
    (hown : ∀ t ∈ (w.bucketOf bid).timers, (w.timerOf t).bucket = some bid)
    (hnd : ((w.bucketOf bid).timers).Nodup) :
    (World.FlushObs w bid).2 = ((w.bucketOf bid).timers).tails.tail ∧
    ((World.FlushObs w bid).1.bucketOf bid).expiration = -1 ∧
    ((World.FlushObs w bid).1.bucketOf bid).timers = [] := by
  obtain ⟨hobs, hempty⟩ :=
    flushObsList_spec bid (w.bucketOf bid).timers w rfl hown hnd
  refine ⟨hobs, ?_, ?_⟩
  · simp [World.FlushObs, World.bucketOf_setBucket, Bucket.SetExpiration]
  · simp [World.FlushObs, World.bucketOf_setBucket, Bucket.SetExpiration,
      hempty]

/-- Witness for the amended C2 at the concrete world `exW`. -/
theorem flush_interleaves_remove_and_callback_witness :
    (World.FlushObs exW 0).2 = ((exW.bucketOf 0).timers).tails.tail ∧
    ((World.FlushObs exW 0).1.bucketOf 0).expiration = -1 ∧
    ((World.FlushObs exW 0).1.bucketOf 0).timers = [] :=
  flush_interleaves_remove_and_callback exW 0 (by decide) (by decide)

/-! ### Helper lemmas about `truncate` and `WF` -/

theorem truncate_eq_mul (x m : Int) (hm : 0 < m) :
    truncate x m = m * (x.tdiv m) := by
  rw [truncate, if_neg (not_le.mpr hm)]
  have := Int.tdiv_add_tmod x m
  omega

theorem truncate_nonneg (x m : Int) (hx : 0 ≤ x) (hm : 0 < m) :
    0 ≤ truncate x m := by
  rw [truncate_eq_mul x m hm]
  exact mul_nonneg hm.le (Int.tdiv_nonneg hx hm.le)

theorem truncate_le (x m : Int) (hx : 0 ≤ x) (hm : 0 < m) :
    truncate x m ≤ x := by
  rw [truncate, if_neg (not_le.mpr hm)]
  have := Int.tmod_nonneg m hx
  omega

theorem truncate_tmod (x m : Int) (hm : 0 < m) :
    (truncate x m).tmod m = 0 := by
  rw [truncate_eq_mul x m hm]
  exact Int.mul_tmod_right m _

theorem newTimeWheel_of_nonneg (tickMs ws start : Int) (h : 0 ≤ ws) :
    newTimeWheel tickMs ws start = some (mkWheel tickMs ws start) := by
  rw [newTimeWheel, if_neg (not_lt.mpr h)]

theorem WF_mk_iff (tick size interval c : Int) (bs : List WBucket)
    (ow : Option TimeWheel) :
    (TimeWheel.mk tick size interval c bs ow).WF = true ↔
      (1 ≤ tick ∧ 2 ≤ size ∧ interval = tick * size ∧ 0 ≤ c ∧
       bs.length = size.toNat ∧
       match ow with
       | none => True
       | some v => v.tick = interval ∧ v.size = size ∧
           v.currentTime ≤ c ∧ v.WF = true) := by
  cases ow <;>
    simp [TimeWheel.WF, Bool.and_eq_true, decide_eq_true_eq, beq_iff_eq,
      and_assoc]

/-! ### C5: `advanceClock` -/

theorem advanceClock_mk (e tick size interval c : Int) (bs : List WBucket)
    (ow : Option TimeWheel) :
    TimeWheel.advanceClock e (.mk tick size interval c bs ow) =
      if c + tick ≤ e then
        TimeWheel.mk tick size interval (truncate e tick) bs
          (match ow with
           | none => none
           | some w => some (w.advanceClock (truncate e tick)))
      else .mk tick size interval c bs ow := by
  rw [TimeWheel.advanceClock.eq_def]

/-- C5.  `advanceClock(expiration)` leaves the level untouched when
`expiration < currentTime + tick`; otherwise it sets the current time
to `truncate(expiration, tick)` — which never exceeds the triggering
expiration and is a multiple of the tick — propagates the advance into
the overflow level when one exists, and modifies nothing else (in
particular the advance only travels from fine to coarse). -/
theorem advanceClock_spec (e : Int) (w : TimeWheel) (h : w.WF = true) :
    (e < w.currentTime + w.tick → w.advanceClock e = w) ∧
    (w.currentTime + w.tick ≤ e →
      (w.advanceClock e).currentTime = truncate e w.tick ∧
      (w.advanceClock e).currentTime ≤ e ∧
      (w.advanceClock e).currentTime.tmod w.tick = 0 ∧
      (w.advanceClock e).tick = w.tick ∧
      (w.advanceClock e).size = w.size ∧
      (w.advanceClock e).interval = w.interval ∧
      (w.advanceClock e).buckets = w.buckets ∧
      (w.advanceClock e).overflow =
        Option.map (TimeWheel.advanceClock (truncate e w.tick))
          w.overflow) := by
  rcases w with ⟨tick, size, interval, c, bs, ow⟩
  obtain ⟨htick, hsize, hint, hc, hlen, -⟩ :=
    (WF_mk_iff tick size interval c bs ow).mp h
  simp only [TimeWheel.currentTime, TimeWheel.tick, TimeWheel.size,
    TimeWheel.interval, TimeWheel.buckets, TimeWheel.overflow]
  constructor
  · intro hlt
    rw [advanceClock_mk, if_neg (not_le.mpr hlt)]
  · intro hge
    have htickpos : (0 : Int) < tick := by omega
    have hepos : (0 : Int) ≤ e := by omega
    rw [advanceClock_mk, if_pos hge]
    refine ⟨rfl, truncate_le e tick hepos htickpos,
      truncate_tmod e tick htickpos, rfl, rfl, rfl, rfl, ?_⟩
    cases ow <;> rfl

/-- Witness for C5: tick 2, three slots, current time 0, advanced by
expiration 7. -/
theorem advanceClock_spec_witness :
    ((7 : Int) < (mkWheel 2 3 0).currentTime + (mkWheel 2 3 0).tick →
      (mkWheel 2 3 0).advanceClock 7 = mkWheel 2 3 0) ∧
    ((mkWheel 2 3 0).currentTime + (mkWheel 2 3 0).tick ≤ 7 →
      ((mkWheel 2 3 0).advanceClock 7).currentTime =
        truncate 7 (mkWheel 2 3 0).tick ∧
      ((mkWheel 2 3 0).advanceClock 7).currentTime ≤ 7 ∧
      ((mkWheel 2 3 0).advanceClock 7).currentTime.tmod
        (mkWheel 2 3 0).tick = 0 ∧
      ((mkWheel 2 3 0).advanceClock 7).tick = (mkWheel 2 3 0).tick ∧
      ((mkWheel 2 3 0).advanceClock 7).size = (mkWheel 2 3 0).size ∧
      ((mkWheel 2 3 0).advanceClock 7).interval =
        (mkWheel 2 3 0).interval ∧
      ((mkWheel 2 3 0).advanceClock 7).buckets =
        (mkWheel 2 3 0).buckets ∧
      ((mkWheel 2 3 0).advanceClock 7).overflow =
        Option.map
          (TimeWheel.advanceClock (truncate 7 (mkWheel 2 3 0).tick))
          (mkWheel 2 3 0).overflow) :=
  advanceClock_spec 7 (mkWheel 2 3 0) (by decide)

/-! ### C6: construction -/

theorem tdivMega_nonpos_iff (tick : Int) :
    tick.tdiv 1000000 ≤ 0 ↔ tick < 1000000 := by
  constructor
  · intro h
    by_contra hlt
    push_neg at hlt
    rw [Int.tdiv_eq_ediv (by omega) (by omega)] at h
    have h1 : (1 : Int) ≤ tick / 1000000 := by
      rw [Int.le_ediv_iff_mul_le (by omega)]
      omega
    omega
  · intro h
    rcases le_or_lt 0 tick with h0 | h0
    · rw [Int.tdiv_eq_ediv h0 (by omega),
        Int.ediv_eq_zero_of_lt h0 (by omega)]
    · have hneg : tick.tdiv 1000000 = -((-tick).tdiv 1000000) := by
        rw [← Int.neg_tdiv, neg_neg]
      have hnn := Int.tdiv_nonneg (by omega : (0 : Int) ≤ -tick)
        (by omega : (0 : Int) ≤ 1000000)
      omega

/-- C6 counterexample.  The claim that construction fails iff the tick
duration is non-positive is false: a tick of 500000 ns (0.5 ms) is
positive, yet `New` computes `tickMs = 0` and panics ("tick must be
greater than or equal to 1ms"). -/
theorem new_rejects_positive_submillisecond_tick :
    (0 : Int) < 500000 ∧ New 500000 12 0 = none := by
  exact ⟨by norm_num, rfl⟩

/-- C6 amended.  Construction fails fatally iff the tick duration is
below one millisecond (its whole-millisecond value `tick / 10^6`
truncates to a non-positive number, hitting the explicit panic) or the
slot count is negative (hitting the makeslice panic inside
`newTimeWheel`); for every tick of at least 1 ms and positive slot
count it succeeds, storing the truncated millisecond tick unclamped,
with no overflow level yet. -/
theorem new_fails_iff_tick_below_one_ms (tick ws nowMs : Int) :
    (New tick ws nowMs = none ↔ (tick < 1000000 ∨ ws < 0)) ∧
    (1000000 ≤ tick → 0 < ws →
      New tick ws nowMs = some (mkWheel (tick.tdiv 1000000) ws nowMs) ∧
      (mkWheel (tick.tdiv 1000000) ws nowMs).tick = tick.tdiv 1000000 ∧
      1 ≤ tick.tdiv 1000000 ∧
      (mkWheel (tick.tdiv 1000000) ws nowMs).overflow = none) := by
  have hiff := tdivMega_nonpos_iff tick
  constructor
  · simp only [New]
    by_cases htk : tick.tdiv 1000000 ≤ 0
    · rw [if_pos htk]
      exact iff_of_true rfl (Or.inl (hiff.mp htk))
    · rw [if_neg htk]
      have htick : ¬tick < 1000000 := fun hl => htk (hiff.mpr hl)
      constructor
      · intro h
        by_contra hc
        push_neg at hc
        rw [newTimeWheel_of_nonneg _ _ _ (by omega)] at h
        exact Option.noConfusion h
      · rintro (h | h)
        · exact absurd h htick
        · rw [newTimeWheel, if_pos h]
  · intro h1 hws
    have htk : ¬tick.tdiv 1000000 ≤ 0 := fun hq => by omega
    refine ⟨?_, rfl, by omega, rfl⟩
    simp only [New]
    rw [if_neg htk, newTimeWheel_of_nonneg _ _ _ (by omega)]

/-- Witness for the amended C6 at a 5 ms tick and 12 slots. -/
theorem new_fails_iff_tick_below_one_ms_witness :
    New 5000000 12 0 =
      some (mkWheel ((5000000 : Int).tdiv 1000000) 12 0) ∧
    (mkWheel ((5000000 : Int).tdiv 1000000) 12 0).tick =
      (5000000 : Int).tdiv 1000000 ∧
    1 ≤ (5000000 : Int).tdiv 1000000 ∧
    (mkWheel ((5000000 : Int).tdiv 1000000) 12 0).overflow = none :=
  (new_fails_iff_tick_below_one_ms 5000000 12 0).2 (by norm_num) (by norm_num)

/-! ### Helper lemmas about `addF` -/

theorem addF_succ (fuel : Nat) (tick size interval c : Int)
    (bs : List WBucket) (ow : Option TimeWheel) (t : WTimer) :
    addF (fuel + 1) (.mk tick size interval c bs ow) t =
      if t.expiration < c + tick then
        some (false, .mk tick size interval c bs ow, [])
      else if t.expiration < c + interval then
        (if 0 ≤ (t.expiration.tdiv tick).tmod size ∧
            ((t.expiration.tdiv tick).tmod size).toNat < bs.length then
          some (true,
            .mk tick size interval c
              (bs.set ((t.expiration.tdiv tick).tmod size).toNat
                { expiration := (t.expiration.tdiv tick) * tick,
                  timers :=
                    (bs.getD ((t.expiration.tdiv tick).tmod size).toNat
                      newWBucket).timers ++ [t] }) ow,
            if (bs.getD ((t.expiration.tdiv tick).tmod size).toNat
                  newWBucket).expiration != (t.expiration.tdiv tick) * tick
            then [(0, ((t.expiration.tdiv tick).tmod size).toNat,
                   (t.expiration.tdiv tick) * tick)]
            else [])
        else none)
      else
        match ow with
        | some w =>
            (addF fuel w t).map fun r =>
              (r.1, .mk tick size interval c bs (some r.2.1),
               r.2.2.map fun o => (o.1 + 1, o.2))
        | none =>
            match newTimeWheel interval size c with
            | none => none
            | some nw =>
                (addF fuel nw t).map fun r =>
                  (r.1, .mk tick size interval c bs (some r.2.1),
                   r.2.2.map fun o => (o.1 + 1, o.2)) := by
  rw [addF.eq_def]
  rfl

theorem slot_index_valid (tick size e c : Int) (bs : List WBucket)
    (htick : 1 ≤ tick) (hsizepos : 0 < size) (hc : 0 ≤ c)
    (hlen : bs.length = size.toNat) (h1 : c + tick ≤ e) :
    0 ≤ (e.tdiv tick).tmod size ∧
    ((e.tdiv tick).tmod size).toNat < bs.length := by
  have he : (0 : Int) ≤ e := by omega
  have hvid : 0 ≤ e.tdiv tick := Int.tdiv_nonneg he (by omega)
  have hj0 : 0 ≤ (e.tdiv tick).tmod size := Int.tmod_nonneg size hvid
  have hjlt : (e.tdiv tick).tmod size < size := Int.tmod_lt_of_pos _ hsizepos
  refine ⟨hj0, ?_⟩
  rw [hlen]
  omega

theorem WF_mkWheel (tickMs ws start : Int) (h1 : 1 ≤ tickMs)
    (h2 : 2 ≤ ws) (h3 : 0 ≤ start) :
    (mkWheel tickMs ws start).WF = true := by
  rw [mkWheel]
  refine (WF_mk_iff _ _ _ _ _ _).mpr
    ⟨h1, h2, rfl, truncate_nonneg start tickMs h3 (by omega), ?_, trivial⟩
  simp

/-! ### C1: "not placed" exactly on the base-level test -/

/-- C1.  On every well-formed wheel level, `add(t)` reports "not
placed" (`false`) iff `t.expiration < currentTime + tick` at that
level; in particular when the timer is delegated to the overflow chain
(`t.expiration ≥ currentTime + interval`) the recursive `add` never
returns `false`, so the base call returns `false` exactly when the
base-level test holds. -/
theorem add_false_iff_due_within_tick :
    ∀ (fuel : Nat) (w : TimeWheel) (t : WTimer)
      (r : Bool × TimeWheel × List Offer), w.WF = true →
      addF fuel w t = some r →
      (r.1 = false ↔ t.expiration < w.currentTime + w.tick) := by
  intro fuel
  induction fuel with
  | zero =>
      intro w t r _ hr
      exact absurd hr (by simp [addF])
  | succ fuel ih =>
      intro w t r hwf hr
      rcases w with ⟨tick, size, interval, c, bs, ow⟩
      obtain ⟨htick, hsize, hint, hc, hlen, how⟩ :=
        (WF_mk_iff tick size interval c bs ow).mp hwf
      simp only [TimeWheel.currentTime, TimeWheel.tick]
      rw [addF_succ] at hr
      by_cases h1 : t.expiration < c + tick
      · rw [if_pos h1] at hr
        obtain rfl := Option.some.inj hr
        simp [h1]
      · rw [if_neg h1] at hr
        by_cases h2 : t.expiration < c + interval
        · rw [if_pos h2] at hr
          by_cases hj : 0 ≤ (t.expiration.tdiv tick).tmod size ∧
              ((t.expiration.tdiv tick).tmod size).toNat < bs.length
          · rw [if_pos hj] at hr
            obtain rfl := Option.some.inj hr
            simp [h1]
          · rw [if_neg hj] at hr
            exact absurd hr (by simp)
        · rw [if_neg h2] at hr
          push_neg at h1 h2
          have hsizele : size ≤ tick * size :=
            le_mul_of_one_le_left (by omega) htick
          cases ow with
          | some w' =>
              obtain ⟨hwtick, hwsize, hwc, hwWF⟩ := how
              dsimp only at hr
              rcases hmap : addF fuel w' t with _ | r'
              · rw [hmap] at hr
                exact absurd hr (by simp)
              · rw [hmap] at hr
                simp only [Option.map_some'] at hr
                obtain rfl := Option.some.inj hr
                have hiff := ih w' t r' hwWF hmap
                have hrtrue : r'.1 = true := by
                  cases hb : r'.1
                  · have := hiff.mp hb
                    rw [hwtick] at this
                    omega
                  · rfl
                exact iff_of_false (by simp [hrtrue]) (by omega)
          | none =>
              have hnwWF : (mkWheel interval size c).WF = true :=
                WF_mkWheel interval size c (by omega) hsize hc
              dsimp only at hr
              rw [newTimeWheel_of_nonneg interval size c (by omega)] at hr
              dsimp only at hr
              rcases hmap : addF fuel (mkWheel interval size c) t
                with _ | r'
              · rw [hmap] at hr
                exact absurd hr (by simp)
              · rw [hmap] at hr
                simp only [Option.map_some'] at hr
                obtain rfl := Option.some.inj hr
                have hiff := ih (mkWheel interval size c) t r' hnwWF hmap
                have hnwc : (mkWheel interval size c).currentTime ≤ c :=
                  truncate_le c interval hc (by omega)
                have hnwtick : (mkWheel interval size c).tick = interval :=
                  rfl
                have hrtrue : r'.1 = true := by
                  cases hb : r'.1
                  · have := hiff.mp hb
                    rw [hnwtick] at this
                    omega
                  · rfl
                exact iff_of_false (by simp [hrtrue]) (by omega)

/-- Witness for C1: an already-due timer on a fresh wheel is reported
"not placed". -/
theorem add_false_iff_due_within_tick_witness :
    ((false, mkWheel 1 2 0, ([] : List Offer)).1 = false ↔
      (⟨0⟩ : WTimer).expiration <
        (mkWheel 1 2 0).currentTime + (mkWheel 1 2 0).tick) :=
  add_false_iff_due_within_tick 1 (mkWheel 1 2 0) ⟨0⟩
    (false, mkWheel 1 2 0, []) (by decide) rfl

/-! ### C4: placement within the level -/

/-- C4.  For a timer with `currentTime + tick ≤ expiration <
currentTime + interval`, `add` appends the timer to the bucket at slot
`(expiration / tick) mod slotCount`, sets that bucket's expiration to
the slot start — the expiration truncated to a multiple of the tick —
and records a delay-queue offer for the bucket exactly when
`SetExpiration` reported a change. -/
theorem add_places_within_level (w : TimeWheel) (t : WTimer) (fuel : Nat)
    (hwf : w.WF = true)
    (h1 : w.currentTime + w.tick ≤ t.expiration)
    (h2 : t.expiration < w.currentTime + w.interval) :
    ∃ b : WBucket,
      b = w.buckets.getD
          ((t.expiration.tdiv w.tick).tmod w.size).toNat newWBucket ∧
      addF (fuel + 1) w t = some (true,
        w.withBuckets
          (w.buckets.set ((t.expiration.tdiv w.tick).tmod w.size).toNat
            { expiration := (t.expiration.tdiv w.tick) * w.tick,
              timers := b.timers ++ [t] }),
        if b.expiration != (t.expiration.tdiv w.tick) * w.tick
        then [(0, ((t.expiration.tdiv w.tick).tmod w.size).toNat,
               (t.expiration.tdiv w.tick) * w.tick)]
        else []) ∧
      (t.expiration.tdiv w.tick) * w.tick = truncate t.expiration w.tick := by
  rcases w with ⟨tick, size, interval, c, bs, ow⟩
  obtain ⟨htick, hsize, hint, hc, hlen, how⟩ :=
    (WF_mk_iff tick size interval c bs ow).mp hwf
  simp only [TimeWheel.currentTime, TimeWheel.tick, TimeWheel.size,
    TimeWheel.interval, TimeWheel.buckets, TimeWheel.withBuckets] at *
  rw [addF_succ, if_neg (not_lt.mpr h1), if_pos h2,
    if_pos (slot_index_valid tick size t.expiration c bs htick
      (by omega) hc hlen h1)]
  refine ⟨_, rfl, rfl, ?_⟩
  rw [truncate_eq_mul t.expiration tick (by omega), Int.mul_comm]

/-- Witness for C4: expiration 1 on a fresh wheel with tick 1 and two
slots lands in slot 1. -/
theorem add_places_within_level_witness :
    ∃ b : WBucket,
      b = (mkWheel 1 2 0).buckets.getD
          ((((⟨1⟩ : WTimer).expiration.tdiv (mkWheel 1 2 0).tick).tmod
            (mkWheel 1 2 0).size).toNat) newWBucket ∧
      addF 1 (mkWheel 1 2 0) ⟨1⟩ = some (true,
        (mkWheel 1 2 0).withBuckets
          ((mkWheel 1 2 0).buckets.set
            ((((⟨1⟩ : WTimer).expiration.tdiv (mkWheel 1 2 0).tick).tmod
              (mkWheel 1 2 0).size).toNat)
            { expiration := ((⟨1⟩ : WTimer).expiration.tdiv
                (mkWheel 1 2 0).tick) * (mkWheel 1 2 0).tick,
              timers := b.timers ++ [⟨1⟩] }),
        if b.expiration != ((⟨1⟩ : WTimer).expiration.tdiv
            (mkWheel 1 2 0).tick) * (mkWheel 1 2 0).tick
        then [(0, (((⟨1⟩ : WTimer).expiration.tdiv
                (mkWheel 1 2 0).tick).tmod
              (mkWheel 1 2 0).size).toNat,
               ((⟨1⟩ : WTimer).expiration.tdiv (mkWheel 1 2 0).tick) *
                 (mkWheel 1 2 0).tick)]
        else []) ∧
      ((⟨1⟩ : WTimer).expiration.tdiv (mkWheel 1 2 0).tick) *
          (mkWheel 1 2 0).tick =
        truncate (⟨1⟩ : WTimer).expiration (mkWheel 1 2 0).tick :=
  add_places_within_level (mkWheel 1 2 0) ⟨1⟩ 0 (by decide)
    (by decide) (by decide)

/-! ### C10: termination of `add` through the overflow chain -/

theorem addF_isSome_of_fuel (t : WTimer) :
    ∀ (k : Nat) (w : TimeWheel), w.WF = true →
      t.expiration < w.interval * 2 ^ k →
      ∃ r, addF (k + 1) w t = some r := by
  intro k
  induction k with
  | zero =>
      intro w hwf hbound
      rcases w with ⟨tick, size, interval, c, bs, ow⟩
      obtain ⟨htick, hsize, hint, hc, hlen, how⟩ :=
        (WF_mk_iff tick size interval c bs ow).mp hwf
      simp only [TimeWheel.interval, pow_zero, mul_one] at hbound
      rw [addF_succ]
      by_cases h1 : t.expiration < c + tick
      · rw [if_pos h1]
        exact ⟨_, rfl⟩
      · rw [if_neg h1, if_pos (by omega : t.expiration < c + interval),
          if_pos (slot_index_valid tick size t.expiration c bs htick
            (by omega) hc hlen (by omega))]
        exact ⟨_, rfl⟩
  | succ k ih =>
      intro w hwf hbound
      rcases w with ⟨tick, size, interval, c, bs, ow⟩
      obtain ⟨htick, hsize, hint, hc, hlen, how⟩ :=
        (WF_mk_iff tick size interval c bs ow).mp hwf
      simp only [TimeWheel.interval] at hbound
      have hsizele : size ≤ tick * size :=
        le_mul_of_one_le_left (by omega) htick
      rw [addF_succ]
      by_cases h1 : t.expiration < c + tick
      · rw [if_pos h1]
        exact ⟨_, rfl⟩
      · rw [if_neg h1]
        by_cases h2 : t.expiration < c + interval
        · rw [if_pos h2,
            if_pos (slot_index_valid tick size t.expiration c bs htick
              (by omega) hc hlen (by omega))]
          exact ⟨_, rfl⟩
        · rw [if_neg h2]
          have hintpos : (0 : Int) < interval := by omega
          have hdouble : interval * 2 ≤ interval * size := by
            have : (2 : Int) ≤ size := hsize
            exact mul_le_mul_of_nonneg_left this (by omega)
          have hbound2 : t.expiration < (interval * size) * 2 ^ k := by
            have hp : (0 : Int) < 2 ^ k := by positivity
            calc t.expiration < interval * 2 ^ (k + 1) := hbound
              _ = (interval * 2) * 2 ^ k := by ring
              _ ≤ (interval * size) * 2 ^ k :=
                  mul_le_mul_of_nonneg_right hdouble hp.le
          cases ow with
          | some w' =>
              obtain ⟨hwtick, hwsize, hwc, hwWF⟩ := how
              have hwint : w'.interval = interval * size := by
                obtain ⟨wt, wss, wi, wc, wbs, wow⟩ := w'
                obtain ⟨-, -, hint', -, -, -⟩ :=
                  (WF_mk_iff wt wss wi wc wbs wow).mp hwWF
                simp only [TimeWheel.tick, TimeWheel.size,
                  TimeWheel.interval] at hwtick hwsize hint' ⊢
                rw [hint', hwtick, hwsize]
              obtain ⟨r', hr'⟩ := ih w' hwWF (by rw [hwint]; exact hbound2)
              dsimp only
              rw [hr']
              exact ⟨_, rfl⟩
          | none =>
              have hnwWF : (mkWheel interval size c).WF = true :=
                WF_mkWheel interval size c (by omega) hsize hc
              obtain ⟨r', hr'⟩ := ih (mkWheel interval size c) hnwWF
                (by simpa [mkWheel, TimeWheel.interval] using hbound2)
              dsimp only
              rw [newTimeWheel_of_nonneg interval size c (by omega)]
              dsimp only
              rw [hr']
              exact ⟨_, rfl⟩

/-- C10.  `add` terminates on every timer for every well-formed wheel
(tick at least 1 ms, at least two slots): enough fuel always yields a
result, because each overflow level at least doubles the interval.
Construction itself never validates the slot count: `New` succeeds for
every slot count that `make([]*bucket, wheelSize)` accepts (every
non-negative one), including sizes 0 and 1 for which the recursion
could not widen — so the `size ≥ 2` precondition is the caller's
responsibility. -/
theorem add_terminates_with_enough_fuel (w : TimeWheel) (t : WTimer)
    (hwf : w.WF = true) :
    (∃ fuel r, addF fuel w t = some r) ∧
    ∀ ws : Int, 0 ≤ ws → (New 1000000 ws 0).isSome = true := by
  constructor
  · have hint2 : (2 : Int) ≤ w.interval := by
      rcases w with ⟨tick, size, interval, c, bs, ow⟩
      obtain ⟨htick, hsize, hint, -, -, -⟩ :=
        (WF_mk_iff tick size interval c bs ow).mp hwf
      have := le_mul_of_one_le_left (α := Int)
        (by omega : (0 : Int) ≤ size) htick
      simp only [TimeWheel.interval]
      omega
    have hbound : t.expiration < w.interval * 2 ^ t.expiration.toNat := by
      have h2k : (t.expiration.toNat : Int) < 2 ^ t.expiration.toNat := by
        exact_mod_cast Nat.lt_two_pow t.expiration.toNat
      have hself : t.expiration ≤ (t.expiration.toNat : Int) :=
        Int.self_le_toNat t.expiration
      have hp : (0 : Int) < 2 ^ t.expiration.toNat := by positivity
      have := le_mul_of_one_le_left hp.le (by omega : (1 : Int) ≤ w.interval)
      omega
    obtain ⟨r, hr⟩ := addF_isSome_of_fuel t t.expiration.toNat w hwf hbound
    exact ⟨t.expiration.toNat + 1, r, hr⟩
  · intro ws hws
    simp only [New]
    rw [if_neg (by decide : ¬((1000000 : Int).tdiv 1000000 ≤ 0)),
      newTimeWheel_of_nonneg _ _ _ hws]
    rfl

/-- Witness for C10 on a fresh two-slot wheel with tick 1. -/
theorem add_terminates_with_enough_fuel_witness :
    (∃ fuel r, addF fuel (mkWheel 1 2 0) ⟨5⟩ = some r) ∧
    ∀ ws : Int, 0 ≤ ws → (New 1000000 ws 0).isSome = true :=
  add_terminates_with_enough_fuel (mkWheel 1 2 0) ⟨5⟩ (by decide)
